import Mathlib

/-! split-the-bill: ledger decoding, settlement and row encoding

A shallow embedding of the Go program `yuki764/split-the-bill`
(`main.go`, `sheets.go`) and the properties of its ledger logic.

Conventions of the embedding

* A finite `float64` is the rational it denotes.  The conversion
  `float64(price)` of an int rounds to the nearest double, ties to even.  The
  sums, the quotient and the differences of `summarizeAccounts` are read
  exactly, over the rationals; `totalFloat64` is the total as `float64`
  computes it, for entries that hold integers.  The one place where the
  program leaves the finite range on finite inputs is the division
  `total / len(members)` with no members; a value that is NaN or ±Inf there is
  `none`.
* Go `int` is the 64 bit signed integer; unary minus wraps.
* A Go `map[string]T` is an association list with unique keys in insertion
  order.  Go leaves the iteration order unspecified; every property below is
  stated through lookups, key sets and sums, which do not depend on it.
* An `interface{}` spreadsheet cell is a string (what the Sheets API
  returns) or an int (what `sendAccount` writes).
-/

set_option autoImplicit false

namespace SplitTheBill

/-! ## Go maps with string keys -/

/-- Update of a Go map, `m[k] = v`: the binding of `k` is replaced where it
stands, a new key is added at the end. -/
def put {β : Type} : List (String × β) → String → β → List (String × β)
  | [], k, v => [(k, v)]
  | (k0, v0) :: t, k, v => if k0 = k then (k0, v) :: t else (k0, v0) :: put t k v

/-- Read of a Go map of floats, `m[k]`: the zero value when `k` is absent. -/
def readOr0 (m : List (String × ℚ)) (k : String) : ℚ :=
  (m.lookup k).getD 0

/-! ## float64 -/

/-- The number of low bits of `a` that fall beyond the 53 significant bits of
a `float64`; the first argument bounds the count. -/
def excessBits : Nat → Nat → Nat
  | 0, _ => 0
  | fuel + 1, a => if a < 9007199254740992 then 0 else excessBits fuel (a / 2) + 1

/-- The natural number `a` rounded to 53 significant bits, to the nearest,
ties to the even significand: the `float64` nearest to `a`, for `a` below
the overflow threshold `2 ^ 1024`. -/
def roundNat (a : Nat) : Nat :=
  let e := excessBits 1024 a
  let q := a / 2 ^ e
  let r := a % 2 ^ e
  if 2 * r < 2 ^ e then q * 2 ^ e
  else if 2 * r = 2 ^ e ∧ q % 2 = 0 then q * 2 ^ e
  else (q + 1) * 2 ^ e

/-- The conversion `float64(n)` of an int (sheets.go line 49), and the
rounding of an exact integer result to `float64`: the nearest double, which
holds an integer again. -/
def f64OfInt (n : Int) : Int :=
  if n < 0 then -(roundNat n.natAbs : Int) else (roundNat n.natAbs : Int)

/-! ## main.go: the settlement engine -/

/-- The Go struct `account` (main.go, lines 19-23). -/
structure account where
  User : String
  Price : ℚ
  Note : String
deriving DecidableEq, Repr

/-- The first loop of `summarizeAccounts` (lines 86-89): `payments[m] = 0.0`
for every member. -/
def initPayments (members : List String) : List (String × ℚ) :=
  members.foldl (fun pay m => put pay m 0) []

/-- The map `payments` of `summarizeAccounts` after its second loop
(lines 91-94): `payments[a.User] += a.Price`. -/
def paymentsOf (accounts : List account) (members : List String) : List (String × ℚ) :=
  accounts.foldl (fun pay a => put pay a.User (readOr0 pay a.User + a.Price))
    (initPayments members)

/-- The variable `total` of `summarizeAccounts` after its second loop
(lines 90-94): `total += a.Price`. -/
def totalOf (accounts : List account) : ℚ :=
  accounts.foldl (fun total a => total + a.Price) 0

/-- The variable `total` of `summarizeAccounts` (lines 90-94) as `float64`
computes it when the entries hold the integers `prices`, as the entries of
`getAccounts` do: each `total += a.Price` is the exact sum rounded to the
nearest double. -/
def totalFloat64 (prices : List Int) : Int :=
  prices.foldl (fun total x => f64OfInt (total + x)) 0

/-- The float division `total / float64(len(members))` (line 96): with no
member the quotient is NaN or ±Inf, which is `none`. -/
def average (total : ℚ) (n : Nat) : Option ℚ :=
  if n = 0 then none else some (total / (n : ℚ))

/-- The float subtraction `avg - p` (line 101); NaN and ±Inf minus a finite
number stay outside the finite range. -/
def minus (avg : Option ℚ) (p : ℚ) : Option ℚ :=
  avg.map (fun a => a - p)

/-- The function `summarizeAccounts` (main.go, lines 85-105): the total and
the map `summary`, one entry `avg - p` per key of `payments`. -/
def summarizeAccounts (accounts : List account) (members : List String) :
    ℚ × List (String × Option ℚ) :=
  let payments := paymentsOf accounts members
  let total := totalOf accounts
  let avg := average total members.length
  (total, payments.map (fun up => (up.1, minus avg up.2)))

/-! ## Go `int`, `strconv.Atoi` and `fmt.Sprint` -/

/-- The least Go `int`, `-1 << 63`. -/
def minInt : Int := -9223372036854775808

/-- The greatest Go `int`, `1 << 63 - 1`. -/
def maxInt : Int := 9223372036854775807

/-- Go unary minus on `int` (`-price`, main.go line 215): two's complement,
so the least int is its own negation. -/
def negInt (p : Int) : Int :=
  (-p + 9223372036854775808) % 18446744073709551616 - 9223372036854775808

/-- The decimal digit `d` as a character. -/
def digitChar (d : Nat) : Char :=
  Char.ofNat (48 + d)

/-- The decimal digits of `n`, most significant first, without leading zero;
the first argument bounds the number of digits. -/
def natChars : Nat → Nat → List Char
  | 0, _ => []
  | fuel + 1, n =>
    if n < 10 then [digitChar n] else natChars fuel (n / 10) ++ [digitChar (n % 10)]

/-- The decimal text of an int, as `fmt.Sprint` and `strconv.Itoa` print it. -/
def itoa (i : Int) : String :=
  if i < 0 then String.mk ('-' :: natChars (i.natAbs + 1) i.natAbs)
  else String.mk (natChars (i.natAbs + 1) i.natAbs)

/-- The value of a decimal digit character, `none` for any other character. -/
def digitVal (c : Char) : Option Nat :=
  if 48 ≤ c.toNat ∧ c.toNat ≤ 57 then some (c.toNat - 48) else none

/-- The digit loop of `strconv.ParseUint` in base 10: every character must be
a digit. -/
def parseNat : List Char → Nat → Option Nat
  | [], acc => some acc
  | c :: cs, acc =>
    match digitVal c with
    | none => none
    | some d => parseNat cs (acc * 10 + d)

/-- The function `strconv.Atoi` on the characters of its argument: an
optional sign, at least one digit, only digits, and a value that fits the
64 bit `int`; `none` is a returned error (syntax or range). -/
def atoiChars : List Char → Option Int
  | [] => none
  | c :: cs =>
    if c = '-' then
      if cs = [] then none
      else match parseNat cs 0 with
        | none => none
        | some n => if n ≤ 9223372036854775808 then some (-(n : Int)) else none
    else if c = '+' then
      if cs = [] then none
      else match parseNat cs 0 with
        | none => none
        | some n => if n < 9223372036854775808 then some (n : Int) else none
    else match parseNat (c :: cs) 0 with
      | none => none
      | some n => if n < 9223372036854775808 then some (n : Int) else none

/-- The function `strconv.Atoi`. -/
def atoi (s : String) : Option Int :=
  atoiChars s.toList

/-! ## Cells, rows and outcomes -/

/-- A spreadsheet cell, a Go `interface{}`: a string or an int. -/
inductive Cell where
  | str (s : String)
  | int (i : Int)
deriving DecidableEq, Repr

/-- The text of a cell, `fmt.Sprint(p)`. -/
def sprint : Cell → String
  | Cell.str s => s
  | Cell.int i => itoa i

/-- The test `p != ""` of sheets.go line 44: only the empty string is blank. -/
def nonBlank (p : Cell) : Bool :=
  decide (p ≠ Cell.str "")

/-- How a piece of a handler ends: it goes on with a value, it stops the
process through `zap.L().Fatal`, or it panics at run time. -/
inductive Outcome (α : Type) where
  | ret (a : α)
  | fatal
  | panic
deriving DecidableEq, Repr

/-! ## sheets.go: decoding the stored rows -/

/-- The inner loop of `getAccounts` (sheets.go, lines 40-52) from field `i`
on, `i ≥ 1`.  The result is the pair the function returns or goes on with:
`(accounts, none)` when the fields are consumed, `([], some text)` for
`return nil, err` with the text that failed to parse. -/
def decodeFields (members : List String) (note : String) :
    Nat → List Cell → List account → Outcome (List account × Option String)
  | _, [], accounts => Outcome.ret (accounts, none)
  | i, p :: ps, accounts =>
    if nonBlank p then
      match atoi (sprint p) with
      | none => Outcome.ret ([], some (sprint p))
      | some price =>
        match members.get? (i - 1) with
        | none => Outcome.panic
        | some u =>
          decodeFields members note (i + 1) ps
            (accounts ++ [⟨u, ((f64OfInt price : Int) : ℚ), note⟩])
    else decodeFields members note (i + 1) ps accounts

/-- One turn of the outer loop of `getAccounts` (lines 38-53): field 0 is the
note, the others are amounts. -/
def decodeRow (members : List String) (row : List Cell) (accounts : List account) :
    Outcome (List account × Option String) :=
  match row with
  | [] => Outcome.ret (accounts, none)
  | p :: ps => decodeFields members (sprint p) 1 ps accounts

/-- The outer loop of `getAccounts` (lines 38-53). -/
def decodeRows (members : List String) :
    List (List Cell) → List account → Outcome (List account × Option String)
  | [], accounts => Outcome.ret (accounts, none)
  | row :: rest, accounts =>
    match decodeRow members row accounts with
    | Outcome.ret (accounts1, none) => decodeRows members rest accounts1
    | r => r

/-- The function `getAccounts` (sheets.go, lines 36-55) on the rows that the
spreadsheet service returned: the pair `(accounts, err)`. -/
def getAccounts (members : List String) (rows : List (List Cell)) :
    Outcome (List account × Option String) :=
  decodeRows members rows []

/-! ## main.go: the row encoder of `sendAccount` -/

/-- The posted form `r.PostForm` at the four keys the handler reads: for each
key its first value, `none` when the key is absent. -/
structure PostForm where
  note : Option String
  type : Option String
  price : Option String
  member : Option String
deriving DecidableEq, Repr

/-- The function `strings.HasPrefix`. -/
def startsWith (s p : String) : Bool :=
  p.toList.isPrefixOf s.toList

/-- The function `strings.Split` with a separator of one character, on
characters: the pieces between the separators. -/
def splitChars (sep : Char) : List Char → List (List Char)
  | [] => [[]]
  | c :: cs =>
    if c = sep then [] :: splitChars sep cs
    else match splitChars sep cs with
      | [] => [[c]]
      | piece :: pieces => (c :: piece) :: pieces

/-- The case `"type"` of the loop over the form (main.go, lines 200-203),
starting from `reciever := ""`: after the test of the head `transfer/` the
receiver is piece 1 of the split at `/`. -/
def recieverOf (type : Option String) : Outcome String :=
  match type with
  | none => Outcome.ret ""
  | some v =>
    if startsWith v "transfer/" then
      match (splitChars '/' v.toList).get? 1 with
      | none => Outcome.panic
      | some piece => Outcome.ret (String.mk piece)
    else Outcome.ret ""

/-- The case `"price"` of the loop over the form (lines 204-208), starting
from `price := 0`: a text that `strconv.Atoi` refuses ends the process. -/
def priceOf (price : Option String) : Outcome Int :=
  match price with
  | none => Outcome.ret 0
  | some v =>
    match atoi v with
    | none => Outcome.fatal
    | some n => Outcome.ret n

/-- The loop over the members (lines 211-219): one cell is appended to the
row per member, in the order of the list. -/
def appendCells (member : Option String) (reciever : String) (price : Int) :
    List String → List Cell → Outcome (List Cell)
  | [], row => Outcome.ret row
  | m :: ms, row =>
    match member with
    | none => Outcome.panic
    | some u =>
      if m = u then appendCells member reciever price ms (row ++ [Cell.int price])
      else if m = reciever then
        appendCells member reciever price ms (row ++ [Cell.int (negInt price)])
      else appendCells member reciever price ms (row ++ [Cell.str ""])

/-- The row encoder of `sendAccount` (main.go, lines 193-219): the row
`rows[0]` that the handler passes to `appendAccount`, or the way it ends
before. -/
def sendAccount (members : List String) (form : PostForm) : Outcome (List Cell) :=
  match form.note with
  | none => Outcome.panic
  | some note =>
    match recieverOf form.type with
    | Outcome.ret reciever =>
      match priceOf form.price with
      | Outcome.ret price => appendCells form.member reciever price members [Cell.str note]
      | Outcome.fatal => Outcome.fatal
      | Outcome.panic => Outcome.panic
    | Outcome.fatal => Outcome.fatal
    | Outcome.panic => Outcome.panic

/-- The form of a submission: the note, the amount in decimal, the submitting
member, and the type `transfer/` followed by the target for a transfer, no
type for a plain expense. -/
def submission (note : String) (amount : Int) (member : String) (target : Option String) :
    PostForm :=
  PostForm.mk (some note) (target.map (fun t => "transfer/" ++ t)) (some (itoa amount))
    (some member)

/-! ## main.go: the selected user of `renderInputForm` -/

/-- The selected user of `renderInputForm` (main.go, lines 136-140):
`r.FormValue("user")` is the empty string when the parameter is absent, and
`members[0]` panics on an empty list. -/
def renderInputFormUser (members : List String) (user : Option String) : Outcome String :=
  let u := user.getD ""
  if u ∈ members then Outcome.ret u
  else match members with
    | [] => Outcome.panic
    | m0 :: _ => Outcome.ret m0

/-- Sum of float values that may be non-finite: a NaN or ±Inf operand keeps
the sum outside the finite range. -/
def sumValues : List (Option ℚ) → Option ℚ
  | [] => some 0
  | none :: _ => none
  | some x :: t => (sumValues t).map (fun s => x + s)

/-- The sum of the values of a balance map, `sum(balances.values())`. -/
def balanceSum (summary : List (String × Option ℚ)) : Option ℚ :=
  sumValues (summary.map Prod.snd)

/-! ## The decoded entries -/

/-- The entry that `getAccounts` appends for one amount field paired with the
member of its column: none for a blank field, else the member as payer, the
`float64` of the integer in the field as amount, and the note of the row. -/
def fieldEntry (note : String) (mp : String × Cell) : Option account :=
  if nonBlank mp.2 then
    (atoi (sprint mp.2)).map (fun v => ⟨mp.1, ((f64OfInt v : Int) : ℚ), note⟩)
  else none

/-- The entries that `getAccounts` appends for one stored row. -/
def rowEntries (members : List String) (row : List Cell) : List account :=
  match row with
  | [] => []
  | p :: ps => (members.zip ps).filterMap (fieldEntry (sprint p))

/-- The entries that `getAccounts` appends for a log, row after row. -/
def logEntries (members : List String) (rows : List (List Cell)) : List account :=
  rows.flatMap (rowEntries members)

/-! ## The decoded entries as the specification describes them -/

/-- The entry of one amount field paired with the member of its column: none
for a blank field, else the member as payer, the integer value of the field
as amount, and the note of the row. -/
def expectedField (note : String) (mp : String × Cell) : Option account :=
  if nonBlank mp.2 then (atoi (sprint mp.2)).map (fun v => ⟨mp.1, (v : ℚ), note⟩)
  else none

/-- The entries of one stored row: field `i` goes with `members[i-1]`, in
column order; field 0 is the note, empty if the row has no field. -/
def expectedRow (members : List String) (row : List Cell) : List account :=
  match row with
  | [] => []
  | p :: ps => (members.zip ps).filterMap (expectedField (sprint p))

/-- The entries of a log, row after row. -/
def expectedEntries (members : List String) (rows : List (List Cell)) : List account :=
  rows.flatMap (expectedRow members)

/-- A field whose text is an integer that `float64` holds exactly. -/
def holdsExactInt (p : Cell) : Bool :=
  match atoi (sprint p) with
  | none => false
  | some v => decide (f64OfInt v = v)

/-- What the entries attribute to `u`: the sum of the amounts whose payer is
`u`. -/
def paidBy (u : String) (entries : List account) : ℚ :=
  ((entries.filter (fun a => a.User = u)).map account.Price).sum

/-- The entry that a transfer row of amount `p` from `sender` to `receiver`
holds for the member `m`: `+p` against the sender, `-p` against the receiver,
nothing for anybody else. -/
def transferEntry (note : String) (p : Int) (sender receiver m : String) : Option account :=
  if m = sender then some ⟨sender, (p : ℚ), note⟩
  else if m = receiver then some ⟨receiver, -(p : ℚ), note⟩
  else none

/-- A field that is not blank and that `strconv.Atoi` refuses. -/
def malformed (p : Cell) : Bool :=
  nonBlank p && (atoi (sprint p)).isNone

/-! ## Lemmas on maps -/

theorem lookup_cons_ite {β : Type} (k k0 : String) (v0 : β) (t : List (String × β)) :
    List.lookup k ((k0, v0) :: t) = if k = k0 then some v0 else List.lookup k t := by
  by_cases h : k = k0
  · simp [List.lookup, h]
  · have h1 : (k == k0) = false := by simpa using h
    simp [List.lookup, h1, h]

theorem lookup_put {β : Type} (m : List (String × β)) (k : String) (v : β) (k1 : String) :
    (put m k v).lookup k1 = if k1 = k then some v else m.lookup k1 := by
  induction m with
  | nil => simp [put, lookup_cons_ite]
  | cons e t ih =>
    obtain ⟨k0, v0⟩ := e
    by_cases h0 : k0 = k
    · subst h0
      by_cases h : k1 = k0 <;> simp [put, lookup_cons_ite, h]
    · by_cases h : k1 = k
      · subst h
        have h1 : ¬ k1 = k0 := fun h2 => h0 h2.symm
        simp [put, lookup_cons_ite, h0, h1, ih]
      · by_cases h2 : k1 = k0 <;> simp [put, lookup_cons_ite, h0, h, h2, ih]

theorem keys_put {β : Type} (m : List (String × β)) (k : String) (v : β) :
    (put m k v).map Prod.fst =
      if k ∈ m.map Prod.fst then m.map Prod.fst else m.map Prod.fst ++ [k] := by
  induction m with
  | nil => simp [put]
  | cons e t ih =>
    obtain ⟨k0, v0⟩ := e
    by_cases h0 : k0 = k
    · simp [put, h0]
    · have h1 : ¬ k = k0 := fun h => h0 h.symm
      by_cases h : k ∈ t.map Prod.fst <;> simp_all [put]

theorem lookup_isSome_iff {β : Type} (m : List (String × β)) (k : String) :
    (m.lookup k).isSome = true ↔ k ∈ m.map Prod.fst := by
  induction m with
  | nil => simp
  | cons e t ih =>
    obtain ⟨k0, v0⟩ := e
    by_cases h : k = k0
    · simp [lookup_cons_ite, h]
    · simp [lookup_cons_ite, ih, h]

theorem sum_put_add (m : List (String × ℚ)) (k : String) (x : ℚ) :
    ((put m k (readOr0 m k + x)).map Prod.snd).sum = (m.map Prod.snd).sum + x := by
  induction m with
  | nil => simp [put, readOr0]
  | cons e t ih =>
    obtain ⟨k0, v0⟩ := e
    by_cases h0 : k0 = k
    · subst h0
      simp [put, readOr0, lookup_cons_ite]
      ring
    · have h1 : ¬ k = k0 := fun h2 => h0 h2.symm
      have h2 : readOr0 ((k0, v0) :: t) k = readOr0 t k := by
        simp [readOr0, lookup_cons_ite, h1]
      simp [put, h0, h2, ih]
      ring

theorem mem_put {β : Type} (m : List (String × β)) (k : String) (v : β) (e : String × β)
    (he : e ∈ put m k v) : e ∈ m ∨ e.2 = v := by
  induction m with
  | nil => simp [put] at he; simp [he]
  | cons e0 t ih =>
    obtain ⟨k0, v0⟩ := e0
    by_cases h0 : k0 = k
    · simp [put, h0] at he
      rcases he with he | he
      · right; simp [he]
      · left; simp [he]
    · simp [put, h0] at he
      rcases he with he | he
      · left; simp [he]
      · rcases ih he with h | h
        · left; simp [h]
        · right; exact h

/-! ## Lemmas on `summarizeAccounts` -/

theorem initFold_values (members : List String) (pay : List (String × ℚ))
    (h : ∀ e ∈ pay, e.2 = 0) :
    ∀ e ∈ members.foldl (fun pay m => put pay m 0) pay, e.2 = 0 := by
  induction members generalizing pay with
  | nil => simpa using h
  | cons m t ih =>
    simp only [List.foldl_cons]
    apply ih
    intro e he
    rcases mem_put pay m 0 e he with h1 | h1
    · exact h e h1
    · exact h1

theorem sum_eq_zero_of_values (pay : List (String × ℚ)) (h : ∀ e ∈ pay, e.2 = 0) :
    (pay.map Prod.snd).sum = 0 := by
  induction pay with
  | nil => simp
  | cons e t ih =>
    have h1 := h e (by simp)
    have h2 := ih (fun x hx => h x (by simp [hx]))
    simp [h1, h2]

theorem initPayments_sum (members : List String) :
    ((initPayments members).map Prod.snd).sum = 0 :=
  sum_eq_zero_of_values _ (initFold_values members [] (by simp))

theorem initFold_keys (members : List String) (pay : List (String × ℚ))
    (h : (pay.map Prod.fst ++ members).Nodup) :
    (members.foldl (fun pay m => put pay m 0) pay).map Prod.fst
      = pay.map Prod.fst ++ members := by
  induction members generalizing pay with
  | nil => simp
  | cons m t ih =>
    have hm : m ∉ pay.map Prod.fst := by
      intro hmem
      have := List.nodup_append.mp h
      exact this.2.2 hmem (by simp)
    have hk : (put pay m 0).map Prod.fst = pay.map Prod.fst ++ [m] := by
      rw [keys_put, if_neg hm]
    simp only [List.foldl_cons]
    rw [ih (put pay m 0) (by rw [hk]; simpa using h), hk]
    simp

theorem initPayments_keys (members : List String) (h : members.Nodup) :
    (initPayments members).map Prod.fst = members := by
  have := initFold_keys members [] (by simpa using h)
  simpa [initPayments] using this

theorem accountsFold_keys (accounts : List account) (pay : List (String × ℚ))
    (h : ∀ a ∈ accounts, a.User ∈ pay.map Prod.fst) :
    (accounts.foldl (fun pay a => put pay a.User (readOr0 pay a.User + a.Price)) pay).map
      Prod.fst = pay.map Prod.fst := by
  induction accounts generalizing pay with
  | nil => simp
  | cons a t ih =>
    have ha : a.User ∈ pay.map Prod.fst := h a (by simp)
    have hk : (put pay a.User (readOr0 pay a.User + a.Price)).map Prod.fst
        = pay.map Prod.fst := by
      rw [keys_put, if_pos ha]
    simp only [List.foldl_cons]
    rw [ih _ (by intro b hb; rw [hk]; exact h b (by simp [hb])), hk]

theorem accountsFold_sum (accounts : List account) (pay : List (String × ℚ)) (tot : ℚ) :
    ((accounts.foldl (fun pay a => put pay a.User (readOr0 pay a.User + a.Price)) pay).map
      Prod.snd).sum - accounts.foldl (fun total a => total + a.Price) tot
      = (pay.map Prod.snd).sum - tot := by
  induction accounts generalizing pay tot with
  | nil => simp
  | cons a t ih =>
    simp only [List.foldl_cons]
    rw [ih, sum_put_add]
    ring

theorem paymentsOf_sum (accounts : List account) (members : List String) :
    ((paymentsOf accounts members).map Prod.snd).sum = totalOf accounts := by
  have h := accountsFold_sum accounts (initPayments members) 0
  rw [initPayments_sum] at h
  unfold paymentsOf totalOf
  linarith

theorem paymentsOf_keys (accounts : List account) (members : List String)
    (hnd : members.Nodup) (hin : ∀ a ∈ accounts, a.User ∈ members) :
    (paymentsOf accounts members).map Prod.fst = members := by
  unfold paymentsOf
  rw [accountsFold_keys, initPayments_keys members hnd]
  rw [initPayments_keys members hnd]
  exact hin

theorem sumValues_some (l : List ℚ) : sumValues (l.map some) = some l.sum := by
  induction l with
  | nil => rfl
  | cons x t ih => simp [sumValues, ih]

theorem sum_map_sub (c : ℚ) (l : List ℚ) :
    (l.map (fun p => c - p)).sum = (l.length : ℚ) * c - l.sum := by
  induction l with
  | nil => simp
  | cons x t ih =>
    simp [ih]
    ring

/-- With at least one member the balances sum to `K * avg - total`, where `K`
is the number of keys of `payments`. -/
theorem balanceSum_eq (accounts : List account) (members : List String)
    (hne : members ≠ []) :
    balanceSum (summarizeAccounts accounts members).2
      = some (((paymentsOf accounts members).length : ℚ)
          * (totalOf accounts / (members.length : ℚ)) - totalOf accounts) := by
  have hlen : members.length ≠ 0 := by
    intro h
    exact hne (List.length_eq_zero.mp h)
  have hmap : (summarizeAccounts accounts members).2.map Prod.snd
      = (((paymentsOf accounts members).map Prod.snd).map
          (fun p => totalOf accounts / (members.length : ℚ) - p)).map some := by
    simp [summarizeAccounts, average, minus, hlen, List.map_map, Function.comp_def]
  unfold balanceSum
  rw [hmap, sumValues_some, sum_map_sub, paymentsOf_sum]
  simp

/-! ## Lemmas on `strconv.Atoi` and the decimal text of an int -/

theorem digitVal_digitChar (d : Nat) (h : d < 10) : digitVal (digitChar d) = some d := by
  interval_cases d <;> decide

theorem parseNat_append (l1 l2 : List Char) (acc : Nat) :
    parseNat (l1 ++ l2) acc = (parseNat l1 acc).bind (fun v => parseNat l2 v) := by
  induction l1 generalizing acc with
  | nil => simp [parseNat]
  | cons c cs ih =>
    cases hc : digitVal c with
    | none => simp [parseNat, hc]
    | some d => simp [parseNat, hc, ih]

theorem parseNat_natChars (fuel n : Nat) (h : n < fuel) :
    parseNat (natChars fuel n) 0 = some n := by
  induction fuel generalizing n with
  | zero => omega
  | succ fuel ih =>
    by_cases hn : n < 10
    · simp [natChars, hn, parseNat, digitVal_digitChar n hn]
    · have h1 : n / 10 < fuel := by omega
      have h2 : n % 10 < 10 := Nat.mod_lt _ (by decide)
      simp only [natChars, hn, if_false]
      rw [parseNat_append, ih (n / 10) h1]
      simp only [Option.some_bind, parseNat, digitVal_digitChar _ h2]
      congr 1
      omega

theorem natChars_ne_nil (fuel n : Nat) : natChars (fuel + 1) n ≠ [] := by
  by_cases hn : n < 10 <;> simp [natChars, hn]

theorem atoiChars_digits (c : Char) (cs : List Char) (n : Nat)
    (h : parseNat (c :: cs) 0 = some n) (hn : n < 9223372036854775808) :
    atoiChars (c :: cs) = some (n : Int) := by
  have hd : digitVal c ≠ none := by
    intro h0
    simp [parseNat, h0] at h
  have h1 : c ≠ '-' := by
    intro hc
    subst hc
    exact hd (by decide)
  have h2 : c ≠ '+' := by
    intro hc
    subst hc
    exact hd (by decide)
  simp [atoiChars, h1, h2, h, hn]

theorem atoi_itoa (p : Int) (hlo : minInt ≤ p) (hhi : p ≤ maxInt) : atoi (itoa p) = some p := by
  unfold minInt at hlo
  unfold maxInt at hhi
  by_cases hneg : p < 0
  · have hp : parseNat (natChars (p.natAbs + 1) p.natAbs) 0 = some p.natAbs :=
      parseNat_natChars _ _ (by omega)
    have hb : p.natAbs ≤ 9223372036854775808 := by omega
    have hv : -(p.natAbs : Int) = p := by omega
    simp only [atoi, itoa, hneg, if_true, String.toList, atoiChars, natChars_ne_nil, hp, hb]
    simp only [hv, if_false]
  · have hp : parseNat (natChars (p.natAbs + 1) p.natAbs) 0 = some p.natAbs :=
      parseNat_natChars _ _ (by omega)
    have hb : p.natAbs < 9223372036854775808 := by omega
    have hv : (p.natAbs : Int) = p := by omega
    obtain ⟨c, cs, hcs⟩ := List.exists_cons_of_ne_nil (natChars_ne_nil p.natAbs p.natAbs)
    rw [hcs] at hp
    simp only [atoi, itoa, hneg, if_false, hcs, String.toList]
    rw [atoiChars_digits c cs p.natAbs hp hb, hv]

theorem negInt_eq (p : Int) (hlo : minInt < p) (hhi : p ≤ maxInt) : negInt p = -p := by
  unfold minInt at hlo
  unfold maxInt at hhi
  unfold negInt
  omega

/-! ## Lemmas on the conversion to float64 -/

theorem roundNat_small (a : Nat) (h : a ≤ 9007199254740992) : roundNat a = a := by
  rcases Nat.lt_or_ge a 9007199254740992 with h1 | h1
  · simp [roundNat, excessBits, h1, Nat.mod_one]
  · have : a = 9007199254740992 := by omega
    subst this
    decide

/-- Every integer of absolute value at most `2 ^ 53` is held exactly. -/
theorem f64OfInt_small (n : Int) (h : n.natAbs ≤ 9007199254740992) : f64OfInt n = n := by
  unfold f64OfInt
  rw [roundNat_small _ h]
  by_cases hn : n < 0
  · rw [if_pos hn]; omega
  · rw [if_neg hn]; omega

theorem f64OfInt_neg (n : Int) : f64OfInt (-n) = -f64OfInt n := by
  unfold f64OfInt
  rcases lt_trichotomy n 0 with h | h | h
  · have h1 : ¬ (-n < 0) := by omega
    rw [if_pos h, if_neg h1, Int.natAbs_neg, neg_neg]
  · subst h
    decide
  · have h1 : -n < 0 := by omega
    have h2 : ¬ n < 0 := by omega
    rw [if_pos h1, if_neg h2, Int.natAbs_neg]

/-! ## Lemmas on `getAccounts` -/

theorem decodeFields_cases (members : List String) (note : String) (fs : List Cell)
    (k : Nat) (accounts : List account) (hlen : fs.length + k ≤ members.length) :
    ((∀ p ∈ fs, malformed p = false) ∧
        decodeFields members note (k + 1) fs accounts
          = Outcome.ret (accounts ++ ((members.drop k).zip fs).filterMap (fieldEntry note), none))
      ∨ ((∃ p ∈ fs, malformed p = true) ∧
        ∃ text, decodeFields members note (k + 1) fs accounts = Outcome.ret ([], some text)) := by
  induction fs generalizing k accounts with
  | nil => left; simp [decodeFields]
  | cons p ps ih =>
    have hk : k < members.length := by simp at hlen; omega
    have hdrop := List.drop_eq_getElem_cons hk
    have hget : members[k]? = some members[k] := List.getElem?_eq_getElem hk
    have hz : (members.drop k).zip (p :: ps)
        = (members[k], p) :: (members.drop (k + 1)).zip ps := by
      rw [hdrop]
      rfl
    have hlen1 : ps.length + (k + 1) ≤ members.length := by simp at hlen; omega
    by_cases hb : nonBlank p = true
    · cases ha : atoi (sprint p) with
      | none =>
        right
        refine ⟨⟨p, by simp, by simp [malformed, hb, ha]⟩, sprint p, ?_⟩
        simp [decodeFields, hb, ha]
      | some v =>
        have hstep : decodeFields members note (k + 1) (p :: ps) accounts
            = decodeFields members note (k + 1 + 1) ps
                (accounts ++ [⟨members[k], ((f64OfInt v : Int) : ℚ), note⟩]) := by
          simp [decodeFields, hb, ha, hget]
        rcases ih (k + 1) (accounts ++ [⟨members[k], ((f64OfInt v : Int) : ℚ), note⟩]) hlen1
          with h | h
        · left
          refine ⟨?_, ?_⟩
          · intro q hq
            rcases List.mem_cons.mp hq with h1 | h1
            · subst h1; simp [malformed, ha]
            · exact h.1 q h1
          · rw [hstep, h.2, hz]
            simp [fieldEntry, hb, ha]
        · right
          obtain ⟨⟨q, hq, hm⟩, text, ht⟩ := h
          exact ⟨⟨q, by simp [hq], hm⟩, text, by rw [hstep, ht]⟩
    · have hb1 : nonBlank p = false := by simpa using hb
      have hstep : decodeFields members note (k + 1) (p :: ps) accounts
          = decodeFields members note (k + 1 + 1) ps accounts := by
        simp [decodeFields, hb1]
      rcases ih (k + 1) accounts hlen1 with h | h
      · left
        refine ⟨?_, ?_⟩
        · intro q hq
          rcases List.mem_cons.mp hq with h1 | h1
          · subst h1; simp [malformed, hb1]
          · exact h.1 q h1
        · rw [hstep, h.2, hz]
          simp [fieldEntry, hb1]
      · right
        obtain ⟨⟨q, hq, hm⟩, text, ht⟩ := h
        exact ⟨⟨q, by simp [hq], hm⟩, text, by rw [hstep, ht]⟩

theorem decodeRow_cases (members : List String) (row : List Cell) (accounts : List account)
    (hlen : row.length ≤ members.length + 1) :
    ((∀ p ∈ row.tail, malformed p = false) ∧
        decodeRow members row accounts
          = Outcome.ret (accounts ++ rowEntries members row, none))
      ∨ ((∃ p ∈ row.tail, malformed p = true) ∧
        ∃ text, decodeRow members row accounts = Outcome.ret ([], some text)) := by
  cases row with
  | nil => left; simp [decodeRow, rowEntries]
  | cons p ps =>
    have h := decodeFields_cases members (sprint p) ps 0 accounts
      (by simp at hlen; omega)
    simpa [decodeRow, rowEntries] using h

theorem decodeRows_cases (members : List String) (rows : List (List Cell))
    (accounts : List account) (hlen : ∀ row ∈ rows, row.length ≤ members.length + 1) :
    ((∀ row ∈ rows, ∀ p ∈ row.tail, malformed p = false) ∧
        decodeRows members rows accounts
          = Outcome.ret (accounts ++ logEntries members rows, none))
      ∨ ((∃ row ∈ rows, ∃ p ∈ row.tail, malformed p = true) ∧
        ∃ text, decodeRows members rows accounts = Outcome.ret ([], some text)) := by
  induction rows generalizing accounts with
  | nil => left; simp [decodeRows, logEntries]
  | cons row rest ih =>
    have hrest : ∀ r ∈ rest, r.length ≤ members.length + 1 :=
      fun r hr => hlen r (by simp [hr])
    rcases decodeRow_cases members row accounts (hlen row (by simp)) with h | h
    · have hstep : decodeRows members (row :: rest) accounts
          = decodeRows members rest (accounts ++ rowEntries members row) := by
        simp [decodeRows, h.2]
      rcases ih (accounts ++ rowEntries members row) hrest with h1 | h1
      · left
        refine ⟨?_, ?_⟩
        · intro r hr
          rcases List.mem_cons.mp hr with h2 | h2
          · subst h2; exact h.1
          · exact h1.1 r h2
        · rw [hstep, h1.2]
          simp [logEntries]
      · right
        obtain ⟨⟨r, hr, hm⟩, text, ht⟩ := h1
        exact ⟨⟨r, by simp [hr], hm⟩, text, by rw [hstep, ht]⟩
    · right
      obtain ⟨hm, text, ht⟩ := h
      exact ⟨⟨row, by simp, hm⟩, text, by simp [decodeRows, ht]⟩

theorem zipEntries_length (note : String) (ps : List Cell) (ms : List String)
    (hlen : ps.length ≤ ms.length) (hok : ∀ p ∈ ps, malformed p = false) :
    ((ms.zip ps).filterMap (fieldEntry note)).length = ps.countP nonBlank := by
  induction ps generalizing ms with
  | nil => simp
  | cons p ps ih =>
    cases ms with
    | nil => simp at hlen
    | cons m ms =>
      have hrec := ih ms (by simpa using hlen) (fun q hq => hok q (by simp [hq]))
      have hp := hok p (by simp)
      by_cases hb : nonBlank p = true
      · cases ha : atoi (sprint p) with
        | none => simp [malformed, hb, ha] at hp
        | some v => simp [List.filterMap_cons, fieldEntry, hb, ha, hrec, List.countP_cons]
      · have hb1 : nonBlank p = false := by simpa using hb
        simp [List.filterMap_cons, fieldEntry, hb1, hrec, List.countP_cons]

theorem logEntries_length (members : List String) (rows : List (List Cell))
    (hlen : ∀ row ∈ rows, row.length ≤ members.length + 1)
    (hok : ∀ row ∈ rows, ∀ p ∈ row.tail, malformed p = false) :
    (logEntries members rows).length
      = (rows.map (fun row => row.tail.countP nonBlank)).sum := by
  induction rows with
  | nil => simp [logEntries]
  | cons row rest ih =>
    have hrec := ih (fun r hr => hlen r (by simp [hr])) (fun r hr => hok r (by simp [hr]))
    have hrow : (rowEntries members row).length = row.tail.countP nonBlank := by
      cases row with
      | nil => simp [rowEntries]
      | cons p ps =>
        have h1 := hlen (p :: ps) (by simp)
        have h2 := hok (p :: ps) (by simp)
        simpa [rowEntries] using
          zipEntries_length (sprint p) ps members (by simp at h1; omega) (by simpa using h2)
    simp only [logEntries] at hrec
    simp [logEntries, hrec, hrow]

theorem decodeRows_append (members : List String) (rows1 rows2 : List (List Cell))
    (accounts accounts1 : List account)
    (h : decodeRows members rows1 accounts = Outcome.ret (accounts1, none)) :
    decodeRows members (rows1 ++ rows2) accounts = decodeRows members rows2 accounts1 := by
  induction rows1 generalizing accounts with
  | nil =>
    simp [decodeRows] at h
    simp [h]
  | cons row rest ih =>
    simp only [List.cons_append, decodeRows] at h ⊢
    cases hr : decodeRow members row accounts with
    | ret a =>
      obtain ⟨a1, e⟩ := a
      cases e with
      | none =>
        rw [hr] at h
        simp only at h ⊢
        exact ih a1 h
      | some text =>
        rw [hr] at h
        simp at h
    | fatal => rw [hr] at h; simp at h
    | panic => rw [hr] at h; simp at h

/-! ## Lemmas on the row encoder -/

theorem appendCells_eq (u reciever : String) (price : Int) (ms : List String)
    (row : List Cell) :
    appendCells (some u) reciever price ms row
      = Outcome.ret (row ++ ms.map (fun m =>
          if m = u then Cell.int price
          else if m = reciever then Cell.int (negInt price) else Cell.str "")) := by
  induction ms generalizing row with
  | nil => simp [appendCells]
  | cons m ms ih =>
    by_cases h1 : m = u
    · simp [appendCells, h1, ih]
    · by_cases h2 : m = reciever
      · subst h2
        simp [appendCells, h1, ih]
      · simp [appendCells, h1, h2, ih]

theorem splitChars_ne_nil (sep : Char) (l : List Char) : splitChars sep l ≠ [] := by
  induction l with
  | nil => simp [splitChars]
  | cons c cs ih =>
    by_cases h : c = sep
    · simp [splitChars, h]
    · cases hs : splitChars sep cs with
      | nil => exact absurd hs ih
      | cons piece pieces => simp [splitChars, h, hs]

theorem splitChars_of_not_mem (sep : Char) (l : List Char) (h : sep ∉ l) :
    splitChars sep l = [l] := by
  induction l with
  | nil => simp [splitChars]
  | cons c cs ih =>
    have h1 : c ≠ sep := fun hc => h (by simp [hc])
    have h2 : sep ∉ cs := fun hc => h (by simp [hc])
    simp [splitChars, h1, ih h2]

theorem splitChars_transfer (l : List Char) :
    splitChars '/' ("transfer/".toList ++ l) = "transfer".toList :: splitChars '/' l := by
  cases hs : splitChars '/' l with
  | nil => exact absurd hs (splitChars_ne_nil _ _)
  | cons piece pieces =>
    simp +decide [splitChars, hs]

theorem recieverOf_transfer (t : String) (h : '/' ∉ t.toList) :
    recieverOf (some ("transfer/" ++ t)) = Outcome.ret t := by
  have h1 : startsWith ("transfer/" ++ t) "transfer/" = true := by
    simp [startsWith, String.toList, String.data_append]
  have h2 : ("transfer/" ++ t).toList = "transfer/".toList ++ t.toList := by
    simp [String.toList, String.data_append]
  simp only [recieverOf, h1, if_true, h2, splitChars_transfer, splitChars_of_not_mem _ _ h]
  simp [String.toList]

theorem recieverOf_ret (type : Option String) : ∃ r, recieverOf type = Outcome.ret r := by
  cases type with
  | none => exact ⟨"", rfl⟩
  | some v =>
    by_cases h : startsWith v "transfer/" = true
    · have hp : "transfer/".toList <+: v.toList := by
        simpa [startsWith] using h
      obtain ⟨rest, hrest⟩ := hp
      have hs : splitChars '/' v.data = "transfer".toList :: splitChars '/' rest := by
        have hd : v.data = v.toList := rfl
        rw [hd, ← hrest, splitChars_transfer]
      cases hr : splitChars '/' rest with
      | nil => exact absurd hr (splitChars_ne_nil _ _)
      | cons piece pieces =>
        exact ⟨String.mk piece, by simp [recieverOf, h, hs, hr]⟩
    · exact ⟨"", by simp [recieverOf, h]⟩

theorem priceOf_itoa (p : Int) (hlo : minInt ≤ p) (hhi : p ≤ maxInt) :
    priceOf (some (itoa p)) = Outcome.ret p := by
  simp [priceOf, atoi_itoa p hlo hhi]

theorem recieverOf_target (target : Option String)
    (h : ∀ t, target = some t → '/' ∉ t.toList) :
    recieverOf (target.map (fun t => "transfer/" ++ t)) = Outcome.ret (target.getD "") := by
  cases target with
  | none => rfl
  | some t => simpa using recieverOf_transfer t (h t rfl)

/-- The row of a submission whose amount is an int and whose target, if any,
has no `/` in its name. -/
theorem sendAccount_submission (members : List String) (note : String) (p : Int)
    (u : String) (target : Option String) (hlo : minInt ≤ p) (hhi : p ≤ maxInt)
    (h : ∀ t, target = some t → '/' ∉ t.toList) :
    sendAccount members (submission note p u target)
      = Outcome.ret (Cell.str note :: members.map (fun m =>
          if m = u then Cell.int p
          else if m = target.getD "" then Cell.int (negInt p) else Cell.str "")) := by
  simp [sendAccount, submission, recieverOf_target target h, priceOf_itoa p hlo hhi,
    appendCells_eq]

/-! ## The settlement engine: zero sum and the empty registry -/

/-- C1, as stated, fails on the code.  With the single member A and one entry
paid by B, who is no member, `payments` gets the extra key B and the balances
sum to 1; with the member A listed twice and one entry of 2 paid by A the map
has one key for two members and the balances sum to -1. -/
theorem zero_sum_counterexample :
    (["A"] : List String) ≠ []
      ∧ balanceSum (summarizeAccounts [⟨"B", 1, ""⟩] ["A"]).2 = some 1
      ∧ balanceSum (summarizeAccounts [⟨"B", 1, ""⟩] ["A"]).2 ≠ some 0
      ∧ balanceSum (summarizeAccounts [⟨"A", 2, ""⟩] ["A", "A"]).2 = some (-1)
      ∧ balanceSum (summarizeAccounts [⟨"A", 2, ""⟩] ["A", "A"]).2 ≠ some 0 := by
  have h1 : balanceSum (summarizeAccounts [⟨"B", 1, ""⟩] ["A"]).2 = some 1 := by
    simp +decide [balanceSum, sumValues, summarizeAccounts, paymentsOf, initPayments, totalOf,
      put, readOr0, average, minus, List.lookup]
  have h2 : balanceSum (summarizeAccounts [⟨"A", 2, ""⟩] ["A", "A"]).2 = some (-1) := by
    simp +decide [balanceSum, sumValues, summarizeAccounts, paymentsOf, initPayments, totalOf,
      put, readOr0, average, minus, List.lookup]
    norm_num
  refine ⟨by decide, h1, ?_, h2, ?_⟩
  · rw [h1]; norm_num
  · rw [h2]; norm_num

/-- C1 (amended): zero sum.  For every non-empty member list without a
repeated name and every sequence of entries whose payers are all in the list,
the values of the balance map returned by `summarizeAccounts` sum to 0
(amounts read exactly, as rationals). -/
theorem zero_sum (accounts : List account) (members : List String)
    (hne : members ≠ []) (hnd : members.Nodup)
    (hin : ∀ a ∈ accounts, a.User ∈ members) :
    balanceSum (summarizeAccounts accounts members).2 = some 0 := by
  have hlen : (paymentsOf accounts members).length = members.length := by
    have h := congrArg List.length (paymentsOf_keys accounts members hnd hin)
    simpa using h
  have hpos : (members.length : ℚ) ≠ 0 := by
    intro h
    apply hne
    have h0 : members.length = 0 := by exact_mod_cast h
    exact List.length_eq_zero.mp h0
  rw [balanceSum_eq accounts members hne, hlen]
  congr 1
  field_simp

/-- C1 (amended), at members A, B, C with A paying 30 and B paying 60. -/
theorem zero_sum_witness :
    (["A", "B", "C"] : List String) ≠ [] ∧ (["A", "B", "C"] : List String).Nodup
      ∧ (∀ a ∈ ([⟨"A", 30, "x"⟩, ⟨"B", 60, "y"⟩] : List account),
          a.User ∈ (["A", "B", "C"] : List String))
      ∧ balanceSum (summarizeAccounts [⟨"A", 30, "x"⟩, ⟨"B", 60, "y"⟩] ["A", "B", "C"]).2
          = some 0 :=
  ⟨by decide, by decide, by decide,
    zero_sum [⟨"A", 30, "x"⟩, ⟨"B", 60, "y"⟩] ["A", "B", "C"] (by decide) (by decide)
      (by decide)⟩

/-- C9, as stated, fails on the code: with no member and one entry of 5 paid
by A, `summarizeAccounts` rejects nothing; it returns the total 5 and a
balance for A that is not finite (the NaN or ±Inf of `avg - p`). -/
theorem empty_registry_counterexample :
    summarizeAccounts [⟨"A", 5, ""⟩] [] = (5, [("A", none)]) := by
  simp +decide [summarizeAccounts, paymentsOf, initPayments, totalOf, put, readOr0, average,
    minus, List.lookup]

theorem readOr0_put (m : List (String × ℚ)) (k : String) (v : ℚ) (u : String) :
    readOr0 (put m k v) u = if u = k then v else readOr0 m u := by
  unfold readOr0
  rw [lookup_put]
  by_cases h : u = k <;> simp [h]

theorem lookup_accountsFold (entries : List account) (pay : List (String × ℚ)) (u : String) :
    (entries.foldl (fun pay a => put pay a.User (readOr0 pay a.User + a.Price)) pay).lookup u
      = if u ∈ entries.map account.User then some (readOr0 pay u + paidBy u entries)
        else pay.lookup u := by
  induction entries generalizing pay with
  | nil => simp
  | cons a t ih =>
    simp only [List.foldl_cons]
    rw [ih]
    by_cases hu : u = a.User
    · subst hu
      by_cases ht : a.User ∈ t.map account.User
      · simp [ht, readOr0_put, paidBy, List.filter_cons]
        ring
      · have hpt : paidBy a.User t = 0 := by
          unfold paidBy
          have : t.filter (fun b => decide (b.User = a.User)) = [] := by
            rw [List.filter_eq_nil_iff]
            intro b hb hbu
            apply ht
            simp only [decide_eq_true_eq] at hbu
            rw [← hbu]
            exact List.mem_map_of_mem _ hb
          simp [this]
        simp only [ht, if_false, lookup_put, if_true, List.map_cons, List.mem_cons, true_or]
        simp [paidBy, List.filter_cons] at hpt ⊢
        simp [hpt]
    · have hu1 : ¬ a.User = u := fun h => hu h.symm
      by_cases ht : u ∈ t.map account.User
      · simp [ht, readOr0_put, hu, paidBy, List.filter_cons, hu1]
      · simp [ht, lookup_put, hu, hu1]

theorem paidBy_eq_zero (u : String) (entries : List account)
    (h : u ∉ entries.map account.User) : paidBy u entries = 0 := by
  unfold paidBy
  have : entries.filter (fun b => decide (b.User = u)) = [] := by
    rw [List.filter_eq_nil_iff]
    intro b hb hbu
    apply h
    simp only [decide_eq_true_eq] at hbu
    rw [← hbu]
    exact List.mem_map_of_mem _ hb
  simp [this]

theorem lookup_initFold (members : List String) (pay : List (String × ℚ)) (u : String) :
    (members.foldl (fun pay m => put pay m 0) pay).lookup u
      = if u ∈ members then some 0 else pay.lookup u := by
  induction members generalizing pay with
  | nil => simp
  | cons m t ih =>
    simp only [List.foldl_cons]
    rw [ih, lookup_put]
    by_cases h1 : u ∈ t
    · simp [h1]
    · by_cases h2 : u = m <;> simp [h1, h2]

theorem lookup_paymentsOf (accounts : List account) (members : List String) (u : String) :
    (paymentsOf accounts members).lookup u
      = if u ∈ accounts.map account.User ∨ u ∈ members then some (paidBy u accounts)
        else none := by
  unfold paymentsOf
  rw [lookup_accountsFold]
  have hinit : (initPayments members).lookup u = if u ∈ members then some 0 else none := by
    unfold initPayments
    rw [lookup_initFold]
    simp
  have hread : readOr0 (initPayments members) u = 0 := by
    unfold readOr0
    rw [hinit]
    by_cases h : u ∈ members <;> simp [h]
  by_cases h1 : u ∈ accounts.map account.User
  · simp only [h1, if_true, true_or, hread, zero_add]
  · by_cases h2 : u ∈ members
    · simp only [h1, if_false, hinit, h2, if_true, or_true, paidBy_eq_zero u accounts h1]
    · simp only [h1, if_false, hinit, h2, or_self]

theorem lookup_map_value {β γ : Type} (g : β → γ) (m : List (String × β)) (u : String) :
    (m.map (fun up => (up.1, g up.2))).lookup u = (m.lookup u).map g := by
  induction m with
  | nil => simp
  | cons e t ih =>
    obtain ⟨k0, v0⟩ := e
    simp only [List.map_cons, lookup_cons_ite, ih]
    by_cases h : u = k0 <;> simp [h]

theorem lookup_summary (accounts : List account) (members : List String) (u : String) :
    (summarizeAccounts accounts members).2.lookup u
      = if u ∈ accounts.map account.User ∨ u ∈ members then
          some (minus (average (totalOf accounts) members.length) (paidBy u accounts))
        else none := by
  simp only [summarizeAccounts]
  rw [lookup_map_value, lookup_paymentsOf]
  by_cases h : u ∈ accounts.map account.User ∨ u ∈ members <;> simp [h]

theorem totalOf_fold (accounts : List account) (tot : ℚ) :
    accounts.foldl (fun total a => total + a.Price) tot
      = tot + (accounts.map account.Price).sum := by
  induction accounts generalizing tot with
  | nil => simp
  | cons a t ih =>
    simp only [List.foldl_cons, ih, List.map_cons, List.sum_cons]
    ring

theorem totalOf_append (accounts entries : List account) :
    totalOf (accounts ++ entries) = totalOf accounts + (entries.map account.Price).sum := by
  unfold totalOf
  rw [totalOf_fold, totalOf_fold]
  simp

theorem paidBy_append (u : String) (accounts entries : List account) :
    paidBy u (accounts ++ entries) = paidBy u accounts + paidBy u entries := by
  simp [paidBy]

/-- C9 (amended): the empty registry is not rejected.  For every sequence of
entries, `summarizeAccounts` called with an empty member list returns the
total of the entries and a balance map whose keys are the payers of the
entries, each with a value that is not finite (the NaN or ±Inf of the
division by zero); no error is raised. -/
theorem empty_registry (accounts : List account) :
    (summarizeAccounts accounts []).1 = totalOf accounts
      ∧ ∀ u, (summarizeAccounts accounts []).2.lookup u
          = if u ∈ accounts.map account.User then some none else none := by
  refine ⟨rfl, ?_⟩
  intro u
  rw [lookup_summary]
  by_cases h : u ∈ accounts.map account.User <;> simp [h, average, minus]

/-! ## The selected user -/

/-- C10, the code at the failing input: with members A, the empty name and B,
in this order, and no `user` parameter, the requested name is the empty
string of `r.FormValue`, which `slices.Contains` finds in the list, so the
selected user is the empty name.  The claim and the comment above the test
(main.go line 136, use `members[0]` as default when `user` is not specified)
ask for the first entry A. -/
theorem default_member_failing_input :
    renderInputFormUser ["A", "", "B"] none = Outcome.ret ""
      ∧ renderInputFormUser ["A", "", "B"] none ≠ Outcome.ret "A" := by
  decide

/-- The selected user as lines 137-140 compute it on a member list that is
not empty: the requested name, read as the empty string when absent, when it
is in the list, and the first entry of the list when it is not. -/
theorem renderInputFormUser_eq (members : List String) (user : Option String)
    (hne : members ≠ []) :
    (user.getD "" ∈ members → renderInputFormUser members user = Outcome.ret (user.getD ""))
      ∧ (user.getD "" ∉ members →
          renderInputFormUser members user = Outcome.ret (members.head hne)) := by
  cases members with
  | nil => exact absurd rfl hne
  | cons m0 ms =>
    refine ⟨?_, ?_⟩
    · intro h
      simp only [renderInputFormUser, h, if_true]
    · intro h
      simp only [renderInputFormUser, h, if_false, List.head_cons]

/-! ## Decoding the stored rows -/

theorem fieldEntry_eq_expected (note : String) (mp : String × Cell)
    (h : nonBlank mp.2 = true → holdsExactInt mp.2 = true) :
    fieldEntry note mp = expectedField note mp := by
  unfold fieldEntry expectedField
  by_cases hb : nonBlank mp.2 = true
  · have he := h hb
    unfold holdsExactInt at he
    cases ha : atoi (sprint mp.2) with
    | none => simp [ha]
    | some v =>
      rw [ha] at he
      have hv : f64OfInt v = v := by simpa using he
      simp [hb, hv]
  · have hb1 : nonBlank mp.2 = false := by simpa using hb
    simp [hb1]

theorem rowEntries_eq_expected (members : List String) (row : List Cell)
    (h : ∀ p ∈ row.tail, nonBlank p = true → holdsExactInt p = true) :
    rowEntries members row = expectedRow members row := by
  cases row with
  | nil => rfl
  | cons p ps =>
    simp only [rowEntries, expectedRow]
    apply List.filterMap_congr
    intro mp hmp
    obtain ⟨m, q⟩ := mp
    exact fieldEntry_eq_expected (sprint p) (m, q) (h q (List.of_mem_zip hmp).2)

theorem logEntries_eq_expected (members : List String) (rows : List (List Cell))
    (h : ∀ row ∈ rows, ∀ p ∈ row.tail, nonBlank p = true → holdsExactInt p = true) :
    logEntries members rows = expectedEntries members rows := by
  induction rows with
  | nil => rfl
  | cons row rest ih =>
    have h1 := rowEntries_eq_expected members row (h row (by simp))
    have h2 := ih (fun r hr => h r (by simp [hr]))
    simp only [logEntries, expectedEntries] at h2 ⊢
    simp [h1, h2]

/-- C5, as stated, fails on the code: with the single member A and the amount
field 9007199254740993, which is `2 ^ 53 + 1`, the field is a decimal integer
that `strconv.Atoi` accepts, yet the amount of the entry is `float64` of it,
9007199254740992, and not the integer value of the field. -/
theorem getAccounts_decodes_counterexample :
    atoi "9007199254740993" = some 9007199254740993
      ∧ getAccounts ["A"] [[Cell.str "n", Cell.str "9007199254740993"]]
        = Outcome.ret ([⟨"A", 9007199254740992, "n"⟩], none)
      ∧ expectedEntries ["A"] [[Cell.str "n", Cell.str "9007199254740993"]]
        = [⟨"A", 9007199254740993, "n"⟩]
      ∧ (⟨"A", 9007199254740992, "n"⟩ : account) ≠ ⟨"A", 9007199254740993, "n"⟩ := by
  decide

/-- C5 (amended): row decoding.  For every member list and every list of
stored rows in which each row has at most one amount field per member and
every non-blank amount field is a decimal integer that `float64` holds
exactly (as it holds every integer of absolute value at most `2 ^ 53`),
`getAccounts` returns no error and exactly the entries of the non-blank
amount fields, in row order and within a row in column order: the payer of
field `i` is `members[i-1]`, the amount is the integer value of the field,
the note is field 0 of the row (empty for a row without fields).  There is
one entry per non-blank amount field, so a blank field yields none and a row
with several non-blank fields yields several. -/
theorem getAccounts_decodes (members : List String) (rows : List (List Cell))
    (hlen : ∀ row ∈ rows, row.length ≤ members.length + 1)
    (hint : ∀ row ∈ rows, ∀ p ∈ row.tail, nonBlank p = true → holdsExactInt p = true) :
    getAccounts members rows = Outcome.ret (expectedEntries members rows, none)
      ∧ (expectedEntries members rows).length
          = (rows.map (fun row => row.tail.countP nonBlank)).sum := by
  have hok : ∀ row ∈ rows, ∀ p ∈ row.tail, malformed p = false := by
    intro row hrow p hp
    by_cases hb : nonBlank p = true
    · have h := hint row hrow p hp hb
      unfold holdsExactInt at h
      cases ha : atoi (sprint p) with
      | none => simp [ha] at h
      | some v => simp [malformed, ha]
    · have hb1 : nonBlank p = false := by simpa using hb
      simp [malformed, hb1]
  have heq := logEntries_eq_expected members rows hint
  refine ⟨?_, ?_⟩
  · rcases decodeRows_cases members rows [] hlen with h | h
    · rw [← heq]
      simpa [getAccounts] using h.2
    · obtain ⟨⟨row, hrow, p, hp, hm⟩, _⟩ := h
      rw [hok row hrow p hp] at hm
      exact absurd hm (by decide)
  · rw [← heq]
    exact logEntries_length members rows hlen hok

/-- C5 (amended), at members A, B and three rows: an expense, a transfer row
with two amounts, and a row without fields. -/
theorem getAccounts_decodes_witness :
    (∀ row ∈ ([[Cell.str "lunch", Cell.str "30", Cell.str ""],
          [Cell.str "back", Cell.int 10, Cell.str "-10"], []] : List (List Cell)),
        row.length ≤ (["A", "B"] : List String).length + 1)
      ∧ (∀ row ∈ ([[Cell.str "lunch", Cell.str "30", Cell.str ""],
          [Cell.str "back", Cell.int 10, Cell.str "-10"], []] : List (List Cell)),
        ∀ p ∈ row.tail, nonBlank p = true → holdsExactInt p = true)
      ∧ getAccounts ["A", "B"]
          [[Cell.str "lunch", Cell.str "30", Cell.str ""],
            [Cell.str "back", Cell.int 10, Cell.str "-10"], []]
        = Outcome.ret ([⟨"A", 30, "lunch"⟩, ⟨"A", 10, "back"⟩, ⟨"B", -10, "back"⟩], none) :=
  ⟨by decide, by decide,
    (getAccounts_decodes ["A", "B"]
      [[Cell.str "lunch", Cell.str "30", Cell.str ""],
        [Cell.str "back", Cell.int 10, Cell.str "-10"], []]
      (by decide) (by decide)).1.trans (by decide)⟩

/-- C6, as stated, fails on the code: with the single member A and a row of
three amount fields 5, 7 and x, the field x does not parse, yet `getAccounts`
returns no error: it panics at `members[1]` on the field 7, before it reaches
the field x. -/
theorem malformed_row_counterexample :
    malformed (Cell.str "x") = true
      ∧ getAccounts ["A"] [[Cell.str "n", Cell.str "5", Cell.str "7", Cell.str "x"]]
          = Outcome.panic := by
  decide

/-- C6 (amended): a malformed row aborts the load.  For every member list and
every list of stored rows in which each row has at most one amount field per
member, `getAccounts` returns an error if and only if some non-blank amount
field does not parse as an integer, and when it returns an error it returns
no entries at all. -/
theorem malformed_row_aborts (members : List String) (rows : List (List Cell))
    (hlen : ∀ row ∈ rows, row.length ≤ members.length + 1) :
    ((∃ accounts text, getAccounts members rows = Outcome.ret (accounts, some text))
        ↔ ∃ row ∈ rows, ∃ p ∈ row.tail, malformed p = true)
      ∧ ∀ accounts text,
          getAccounts members rows = Outcome.ret (accounts, some text) → accounts = [] := by
  rcases decodeRows_cases members rows [] hlen with h | h
  · obtain ⟨hok, hret⟩ := h
    have hret1 : getAccounts members rows
        = Outcome.ret ([] ++ logEntries members rows, none) := hret
    refine ⟨⟨?_, ?_⟩, ?_⟩
    · rintro ⟨accounts, text, he⟩
      rw [hret1] at he
      simp at he
    · rintro ⟨row, hrow, p, hp, hm⟩
      rw [hok row hrow p hp] at hm
      exact absurd hm (by decide)
    · intro accounts text he
      rw [hret1] at he
      simp at he
  · obtain ⟨hbad, text, hret⟩ := h
    have hret1 : getAccounts members rows = Outcome.ret ([], some text) := hret
    refine ⟨⟨fun _ => hbad, fun _ => ⟨[], text, hret1⟩⟩, ?_⟩
    intro accounts text1 he
    rw [hret1] at he
    simp at he
    exact he.1

/-- C6 (amended), at members A, B: the second row holds the text x, and the
load returns the error alone, without the entry of the first row. -/
theorem malformed_row_aborts_witness :
    (∀ row ∈ ([[Cell.str "n", Cell.str "5"], [Cell.str "m", Cell.str "", Cell.str "x"]] :
          List (List Cell)), row.length ≤ (["A", "B"] : List String).length + 1)
      ∧ ((∃ accounts text,
          getAccounts ["A", "B"]
            [[Cell.str "n", Cell.str "5"], [Cell.str "m", Cell.str "", Cell.str "x"]]
            = Outcome.ret (accounts, some text))
        ↔ ∃ row ∈ ([[Cell.str "n", Cell.str "5"], [Cell.str "m", Cell.str "", Cell.str "x"]] :
            List (List Cell)), ∃ p ∈ row.tail, malformed p = true)
      ∧ getAccounts ["A", "B"]
          [[Cell.str "n", Cell.str "5"], [Cell.str "m", Cell.str "", Cell.str "x"]]
          = Outcome.ret ([], some "x") :=
  ⟨by decide,
    (malformed_row_aborts ["A", "B"]
      [[Cell.str "n", Cell.str "5"], [Cell.str "m", Cell.str "", Cell.str "x"]]
      (by decide)).1,
    by decide⟩

/-! ## The row encoder -/

theorem getElem_mem_self (members : List String) (i : Nat) (h : i < members.length) :
    members[i] ∈ members :=
  List.getElem_mem h

theorem row_get_succ (note : String) (f : String → Cell) (members : List String) (i : Nat)
    (h : i < members.length) :
    (Cell.str note :: members.map f).get? (i + 1) = some (f members[i]) := by
  simp [List.getElem?_eq_getElem h]

/-- C4, as stated, fails on the code in three places.  With members A and
the empty name and no target, the receiver is the empty string and the column
of the empty name holds -5 instead of a blank.  With the target x/y the
receiver is cut at the slash, and the column of x/y stays blank instead of
holding -5.  With the least int as amount the negation wraps, and the column
of the target holds the amount itself, not its opposite. -/
theorem encoded_row_counterexample :
    sendAccount ["A", ""] (submission "n" 5 "A" none)
        = Outcome.ret [Cell.str "n", Cell.int 5, Cell.int (-5)]
      ∧ sendAccount ["A", "x/y"] (submission "n" 5 "A" (some "x/y"))
        = Outcome.ret [Cell.str "n", Cell.int 5, Cell.str ""]
      ∧ sendAccount ["A", "B"] (submission "n" minInt "A" (some "B"))
        = Outcome.ret [Cell.str "n", Cell.int minInt, Cell.int minInt]
      ∧ Cell.int minInt ≠ Cell.int (-minInt) := by
  decide

/-- C4 (amended): encoded row shape.  For every member list, note, int
amount other than the least int, submitting member and optional transfer
target that differs from the submitter and has no slash in its name, where
without a target the empty string names no member other than the submitter,
the row built by `sendAccount` is the note at column 0 followed by exactly one
cell per member in registry order: +amount at the submitting member's column,
-amount at the transfer target's column when a target is given, and a blank
at every other column; without a target every column other than the
submitter's is blank. -/
theorem encoded_row_shape (members : List String) (note : String) (p : Int) (u : String)
    (target : Option String) (hlo : minInt < p) (hhi : p ≤ maxInt)
    (htarget : ∀ t, target = some t → t ≠ u ∧ '/' ∉ t.toList)
    (hempty : target = none → "" ∈ members → u = "") :
    ∃ row, sendAccount members (submission note p u target) = Outcome.ret row
      ∧ row.length = members.length + 1
      ∧ row.get? 0 = some (Cell.str note)
      ∧ ∀ i (h : i < members.length),
          row.get? (i + 1)
            = some (if members[i] = u then Cell.int p
                else if some members[i] = target then Cell.int (-p) else Cell.str "") := by
  refine ⟨_, sendAccount_submission members note p u target (le_of_lt hlo) hhi
    (fun t ht => (htarget t ht).2), by simp, by simp, ?_⟩
  intro i h
  rw [row_get_succ note _ members i h, negInt_eq p hlo hhi]
  congr 1
  by_cases h1 : members[i] = u
  · simp [h1]
  · cases target with
    | some t => simp [h1]
    | none =>
      have h2 : members[i] ≠ "" := by
        intro h3
        have h4 : "" ∈ members := by
          rw [← h3]
          exact getElem_mem_self members i h
        exact h1 (by rw [h3, hempty rfl h4])
      simp [h1, h2]

/-- C4 (amended), at members A, B, C: a transfer of 10 from A to C. -/
theorem encoded_row_shape_witness :
    (minInt < 10 ∧ (10 : Int) ≤ maxInt)
      ∧ ∃ row, sendAccount ["A", "B", "C"] (submission "n" 10 "A" (some "C")) = Outcome.ret row
        ∧ row.length = 4 := by
  obtain ⟨row, h1, h2, _⟩ := encoded_row_shape ["A", "B", "C"] "n" 10 "A" (some "C")
    (by decide) (by decide)
    (by intro t ht; cases ht; decide) (by intro ht; cases ht)
  exact ⟨by decide, row, h1, h2⟩

/-- C7, as stated, fails on the code: with members A and B, a submission by Z,
who is no member, is not rejected and gives the row of the note and two
blanks; a transfer from A to the unknown Z gives the row of a plain expense
of A. -/
theorem unknown_member_counterexample :
    "Z" ∉ (["A", "B"] : List String)
      ∧ sendAccount ["A", "B"] (submission "n" 5 "Z" none)
        = Outcome.ret [Cell.str "n", Cell.str "", Cell.str ""]
      ∧ sendAccount ["A", "B"] (submission "n" 5 "A" (some "Z"))
        = Outcome.ret [Cell.str "n", Cell.int 5, Cell.str ""] := by
  decide

/-- C7 (amended): an unknown member is not rejected.  For every member list
and every submission of an int amount, whether or not the submitting member
and the transfer target (without slash in its name) are in the list,
`sendAccount` raises no error and builds a row of the note at column 0 and
one cell per member.  When the submitting member is not in the list, no column holds
+amount: each column is blank, or holds the negated amount when its member is
the receiver (the target, or the empty name without a target).  When the
receiver is not in the list, each column is blank, or holds +amount when its
member is the submitter. -/
theorem unknown_member_row (members : List String) (note : String) (p : Int) (u : String)
    (target : Option String) (hlo : minInt ≤ p) (hhi : p ≤ maxInt)
    (htarget : ∀ t, target = some t → '/' ∉ t.toList) :
    ∃ row, sendAccount members (submission note p u target) = Outcome.ret row
      ∧ row.length = members.length + 1
      ∧ row.get? 0 = some (Cell.str note)
      ∧ (u ∉ members → ∀ i (h : i < members.length),
          row.get? (i + 1)
            = some (if members[i] = target.getD "" then Cell.int (negInt p) else Cell.str ""))
      ∧ (target.getD "" ∉ members → ∀ i (h : i < members.length),
          row.get? (i + 1) = some (if members[i] = u then Cell.int p else Cell.str "")) := by
  refine ⟨_, sendAccount_submission members note p u target hlo hhi htarget, by simp, by simp,
    ?_, ?_⟩
  · intro hu i h
    have h1 : members[i] ≠ u := by
      intro h2
      exact hu (by rw [← h2]; exact getElem_mem_self members i h)
    rw [row_get_succ note _ members i h]
    simp [h1]
  · intro hr i h
    have h1 : members[i] ≠ target.getD "" := by
      intro h2
      exact hr (by rw [← h2]; exact getElem_mem_self members i h)
    rw [row_get_succ note _ members i h]
    simp [h1]

/-- C7 (amended), at members A, B and the unknown submitter Z. -/
theorem unknown_member_row_witness :
    (minInt ≤ 5 ∧ (5 : Int) ≤ maxInt) ∧ "Z" ∉ (["A", "B"] : List String)
      ∧ ∃ row, sendAccount ["A", "B"] (submission "n" 5 "Z" none) = Outcome.ret row
        ∧ row.length = 3 ∧ row.get? 0 = some (Cell.str "n") := by
  obtain ⟨row, h1, h2, h3, _⟩ := unknown_member_row ["A", "B"] "n" 5 "Z" none
    (by decide) (by decide) (by intro t ht; cases ht)
  exact ⟨by decide, by decide, row, h1, h2, h3⟩

/-- C8, as stated, fails on the code: the amounts 0 and -5 are not rejected;
with members A and B a plain expense of A gives the rows that hold 0 and -5
at the column of A. -/
theorem invalid_amount_counterexample :
    sendAccount ["A", "B"] (PostForm.mk (some "n") none (some "0") (some "A"))
        = Outcome.ret [Cell.str "n", Cell.int 0, Cell.str ""]
      ∧ sendAccount ["A", "B"] (PostForm.mk (some "n") none (some "-5") (some "A"))
        = Outcome.ret [Cell.str "n", Cell.int (-5), Cell.str ""] := by
  decide

/-- C8 (amended): only an amount that is no integer is rejected.  For every
member list and every posted form with a note and a submitting member:
when `strconv.Atoi` refuses the amount text, `sendAccount` ends the process
through the fatal log, with the error of `Atoi`, and builds no row; when the
amount text is an integer, be it zero or negative, `sendAccount` raises no
error and builds a row of the note at column 0 and one cell per member, which
holds the amount at every column whose member is the submitting member. -/
theorem invalid_amount (members : List String) (note text u : String)
    (type : Option String) :
    (atoi text = none →
        sendAccount members (PostForm.mk (some note) type (some text) (some u))
          = Outcome.fatal)
      ∧ ∀ v, atoi text = some v →
          ∃ row, sendAccount members (PostForm.mk (some note) type (some text) (some u))
              = Outcome.ret row
            ∧ row.length = members.length + 1
            ∧ row.get? 0 = some (Cell.str note)
            ∧ ∀ i (h : i < members.length), members[i] = u →
                row.get? (i + 1) = some (Cell.int v) := by
  obtain ⟨r, hr⟩ := recieverOf_ret type
  refine ⟨?_, ?_⟩
  · intro h
    simp [sendAccount, hr, priceOf, h]
  · intro v h
    refine ⟨Cell.str note :: members.map (fun m =>
        if m = u then Cell.int v else if m = r then Cell.int (negInt v) else Cell.str ""),
      by simp only [sendAccount, hr, priceOf, h, appendCells_eq, List.singleton_append],
      by simp, by simp, ?_⟩
    intro i hi hu
    rw [row_get_succ note _ members i hi]
    simp [hu]

/-- C8 (amended), at members A, B: the amount text 1.5 ends the process, the
amount text -5 gives a row. -/
theorem invalid_amount_witness :
    atoi "1.5" = none ∧ atoi "-5" = some (-5)
      ∧ sendAccount ["A", "B"] (PostForm.mk (some "n") none (some "1.5") (some "A"))
          = Outcome.fatal
      ∧ ∃ row, sendAccount ["A", "B"] (PostForm.mk (some "n") none (some "-5") (some "A"))
            = Outcome.ret row
          ∧ row.length = 3 ∧ row.get? 0 = some (Cell.str "n")
          ∧ row.get? 1 = some (Cell.int (-5)) := by
  obtain ⟨row, h1, h2, h3, h4⟩ :=
    (invalid_amount ["A", "B"] "n" "-5" "A" none).2 (-5) (by decide)
  exact ⟨by decide, by decide, (invalid_amount ["A", "B"] "n" "1.5" "A" none).1 (by decide),
    row, h1, h2, h3, h4 0 (by decide) (by decide)⟩

/-! ## The concrete scenario -/

/-- C3, as stated, fails on the code: `sendAccount` writes +10 at the column
of the sender A and -10 at the column of the receiver C, so the rows of
(A pays 30), (B pays 60) and (A transfers 10 to C) decode to the total 90
with A having paid 40, not 20, and C -10, not 10. -/
theorem scenario_counterexample :
    sendAccount ["A", "B", "C"] (submission "" 30 "A" none)
        = Outcome.ret [Cell.str "", Cell.int 30, Cell.str "", Cell.str ""]
      ∧ sendAccount ["A", "B", "C"] (submission "" 60 "B" none)
        = Outcome.ret [Cell.str "", Cell.str "", Cell.int 60, Cell.str ""]
      ∧ sendAccount ["A", "B", "C"] (submission "" 10 "A" (some "C"))
        = Outcome.ret [Cell.str "", Cell.int 10, Cell.str "", Cell.int (-10)]
      ∧ getAccounts ["A", "B", "C"]
          [[Cell.str "", Cell.int 30, Cell.str "", Cell.str ""],
            [Cell.str "", Cell.str "", Cell.int 60, Cell.str ""],
            [Cell.str "", Cell.int 10, Cell.str "", Cell.int (-10)]]
        = Outcome.ret ([⟨"A", 30, ""⟩, ⟨"B", 60, ""⟩, ⟨"A", 10, ""⟩, ⟨"C", -10, ""⟩], none)
      ∧ paymentsOf [⟨"A", 30, ""⟩, ⟨"B", 60, ""⟩, ⟨"A", 10, ""⟩, ⟨"C", -10, ""⟩]
          ["A", "B", "C"] ≠ [("A", 20), ("B", 60), ("C", 10)]
      ∧ (summarizeAccounts [⟨"A", 30, ""⟩, ⟨"B", 60, ""⟩, ⟨"A", 10, ""⟩, ⟨"C", -10, ""⟩]
          ["A", "B", "C"]).2.lookup "A" ≠ some (some 10) := by
  refine ⟨by decide, by decide, by decide, by decide, ?_, ?_⟩
  · simp +decide [paymentsOf, initPayments, put, readOr0, List.lookup]
  · simp +decide [summarizeAccounts, paymentsOf, initPayments, totalOf, put, readOr0,
      average, minus, List.lookup]
    norm_num

/-- C3 (amended): the concrete scenario.  With members [A, B, C] and the
three rows that `sendAccount` builds for (A pays 30), (B pays 60) and
(A transfers 10 to C), whatever the notes, decoding the rows with
`getAccounts` and summarizing with `summarizeAccounts` gives total = 90,
paid = {A:40, B:60, C:-10} and balances = {A:-10, B:-30, C:40}. -/
theorem scenario (n1 n2 n3 : String) :
    ∃ r1 r2 r3 accounts,
      sendAccount ["A", "B", "C"] (submission n1 30 "A" none) = Outcome.ret r1
        ∧ sendAccount ["A", "B", "C"] (submission n2 60 "B" none) = Outcome.ret r2
        ∧ sendAccount ["A", "B", "C"] (submission n3 10 "A" (some "C")) = Outcome.ret r3
        ∧ getAccounts ["A", "B", "C"] [r1, r2, r3] = Outcome.ret (accounts, none)
        ∧ (summarizeAccounts accounts ["A", "B", "C"]).1 = 90
        ∧ paymentsOf accounts ["A", "B", "C"] = [("A", 40), ("B", 60), ("C", -10)]
        ∧ (summarizeAccounts accounts ["A", "B", "C"]).2
            = [("A", some (-10)), ("B", some (-30)), ("C", some 40)] := by
  refine ⟨[Cell.str n1, Cell.int 30, Cell.str "", Cell.str ""],
    [Cell.str n2, Cell.str "", Cell.int 60, Cell.str ""],
    [Cell.str n3, Cell.int 10, Cell.str "", Cell.int (-10)],
    [⟨"A", 30, n1⟩, ⟨"B", 60, n2⟩, ⟨"A", 10, n3⟩, ⟨"C", -10, n3⟩], ?_, ?_, ?_, ?_, ?_, ?_, ?_⟩
  · rw [sendAccount_submission _ _ _ _ _ (by decide) (by decide) (by simp)]
    simp +decide
  · rw [sendAccount_submission _ _ _ _ _ (by decide) (by decide) (by simp)]
    simp +decide
  · rw [sendAccount_submission _ _ _ _ _ (by decide) (by decide)
      (by intro t ht; cases ht; decide)]
    simp +decide
  · simp +decide [getAccounts, decodeRows, decodeRow, decodeFields, sprint, nonBlank,
      atoi_itoa 30 (by decide) (by decide), atoi_itoa 60 (by decide) (by decide),
      atoi_itoa 10 (by decide) (by decide), atoi_itoa (-10) (by decide) (by decide)]
  · simp +decide [summarizeAccounts, totalOf]
    norm_num
  · simp +decide [paymentsOf, initPayments, put, readOr0, List.lookup]
    norm_num
  · simp +decide [summarizeAccounts, paymentsOf, initPayments, totalOf, put, readOr0,
      average, minus, List.lookup]
    norm_num

/-! ## Transfer rows -/

theorem zip_map_filterMap {γ : Type} (f : String → Cell) (h : String × Cell → Option γ)
    (ms : List String) :
    (ms.zip (ms.map f)).filterMap h = ms.filterMap (fun m => h (m, f m)) := by
  induction ms with
  | nil => rfl
  | cons m t ih => simp [List.filterMap_cons, ih]

theorem malformed_int (i : Int) (hlo : minInt ≤ i) (hhi : i ≤ maxInt) :
    malformed (Cell.int i) = false := by
  simp [malformed, sprint, atoi_itoa i hlo hhi]

theorem fieldEntry_int (note m : String) (i : Int) (hlo : minInt ≤ i) (hhi : i ≤ maxInt)
    (hexact : f64OfInt i = i) :
    fieldEntry note (m, Cell.int i) = some ⟨m, (i : ℚ), note⟩ := by
  simp [fieldEntry, nonBlank, sprint, atoi_itoa i hlo hhi, hexact]

theorem fieldEntry_blank (note m : String) : fieldEntry note (m, Cell.str "") = none := by
  simp [fieldEntry, nonBlank]

/-- The row of a transfer decodes to the two entries of the transfer. -/
theorem decodeRow_transfer (members : List String) (note : String) (p : Int)
    (sender receiver : String) (accounts : List account)
    (hlo : minInt < p) (hhi : p ≤ maxInt) (hexact : f64OfInt p = p) :
    decodeRow members
        (Cell.str note :: members.map (fun m =>
          if m = sender then Cell.int p
          else if m = receiver then Cell.int (negInt p) else Cell.str "")) accounts
      = Outcome.ret
          (accounts ++ members.filterMap (transferEntry note p sender receiver), none) := by
  have hneg := negInt_eq p hlo hhi
  have hlo1 : minInt ≤ -p := by unfold maxInt at hhi; unfold minInt; omega
  have hhi1 : -p ≤ maxInt := by unfold minInt at hlo; unfold maxInt; omega
  have hexact1 : f64OfInt (-p) = -p := by rw [f64OfInt_neg, hexact]
  have hentries : rowEntries members
      (Cell.str note :: members.map (fun m =>
        if m = sender then Cell.int p
        else if m = receiver then Cell.int (negInt p) else Cell.str ""))
      = members.filterMap (transferEntry note p sender receiver) := by
    simp only [rowEntries, sprint, zip_map_filterMap]
    congr 1
    funext m
    by_cases h1 : m = sender
    · simp [h1, transferEntry, fieldEntry_int note sender p (le_of_lt hlo) hhi hexact]
    · by_cases h2 : m = receiver
      · subst h2
        simp [h1, transferEntry, hneg, fieldEntry_int note m (-p) hlo1 hhi1 hexact1]
      · simp only [h1, h2, if_false, transferEntry, fieldEntry_blank]
  rcases decodeRow_cases members
      (Cell.str note :: members.map (fun m =>
        if m = sender then Cell.int p
        else if m = receiver then Cell.int (negInt p) else Cell.str "")) accounts
      (by simp) with h | h
  · rw [h.2, hentries]
  · exfalso
    obtain ⟨⟨q, hq, hm⟩, _⟩ := h
    simp only [List.tail_cons, List.mem_map] at hq
    obtain ⟨m, _, hqm⟩ := hq
    by_cases h1 : m = sender
    · simp only [h1, if_true] at hqm
      rw [← hqm, malformed_int p (le_of_lt hlo) hhi] at hm
      exact absurd hm (by decide)
    · by_cases h2 : m = receiver
      · subst h2
        simp only [h1, if_true, if_false, hneg] at hqm
        rw [← hqm, malformed_int (-p) hlo1 hhi1] at hm
        exact absurd hm (by decide)
      · simp only [h1, h2, if_false] at hqm
        rw [← hqm] at hm
        exact absurd hm (by decide)

theorem transfer_users (note : String) (p : Int) (sender receiver : String)
    (ms : List String) :
    ∀ e ∈ ms.filterMap (transferEntry note p sender receiver),
      e.User = sender ∨ e.User = receiver := by
  intro e he
  obtain ⟨m, _, hm⟩ := List.mem_filterMap.mp he
  unfold transferEntry at hm
  by_cases h1 : m = sender
  · simp only [h1, if_true, Option.some.injEq] at hm
    left
    rw [← hm]
  · by_cases h2 : m = receiver
    · subst h2
      simp only [h1, if_true, if_false, Option.some.injEq] at hm
      right
      rw [← hm]
    · simp [h1, h2] at hm

theorem transfer_sum (note : String) (p : Int) (sender receiver : String)
    (hne : sender ≠ receiver) (ms : List String) :
    ((ms.filterMap (transferEntry note p sender receiver)).map account.Price).sum
      = (ms.count sender : ℚ) * (p : ℚ) - (ms.count receiver : ℚ) * (p : ℚ) := by
  induction ms with
  | nil => simp
  | cons m t ih =>
    by_cases h1 : m = sender
    · subst h1
      have h2 : ¬ m = receiver := hne
      simp [List.filterMap_cons, transferEntry, List.count_cons, ih, h2]
      ring
    · by_cases h2 : m = receiver
      · subst h2
        simp [List.filterMap_cons, transferEntry, List.count_cons, ih, h1]
        ring
      · simp [List.filterMap_cons, transferEntry, List.count_cons, ih, h1, h2]

theorem transfer_paidBy (note : String) (p : Int) (sender receiver : String)
    (hne : sender ≠ receiver) (u : String) (ms : List String) :
    paidBy u (ms.filterMap (transferEntry note p sender receiver))
      = (if u = sender then (ms.count sender : ℚ) * (p : ℚ) else 0)
        - (if u = receiver then (ms.count receiver : ℚ) * (p : ℚ) else 0) := by
  induction ms with
  | nil => simp [paidBy]
  | cons m t ih =>
    unfold paidBy at ih ⊢
    by_cases h1 : m = sender
    · subst h1
      have h2 : ¬ m = receiver := hne
      by_cases hu : u = m
      · subst hu
        simp [List.filterMap_cons, transferEntry, List.count_cons, List.filter_cons, h2] at ih ⊢
        rw [ih]
        ring
      · have hu1 : ¬ m = u := fun h => hu h.symm
        simp [List.filterMap_cons, transferEntry, List.count_cons, List.filter_cons, h2, hu,
          hu1] at ih ⊢
        rw [ih]
    · by_cases h2 : m = receiver
      · subst h2
        by_cases hu : u = m
        · subst hu
          simp [List.filterMap_cons, transferEntry, List.count_cons, List.filter_cons, h1]
            at ih ⊢
          rw [ih]
          ring
        · have hu1 : ¬ m = u := fun h => hu h.symm
          simp [List.filterMap_cons, transferEntry, List.count_cons, List.filter_cons, h1, hu,
            hu1] at ih ⊢
          rw [ih]
      · simp [List.filterMap_cons, transferEntry, List.count_cons, List.filter_cons, h1, h2]
          at ih ⊢
        rw [ih]

/-- C2, as stated, fails on the code in six places, for a transfer of A to
the other member appended to a log.  With A listed twice the row holds +10
twice and the total of the empty log rises from 0 to 10; with B listed twice
it holds -10 twice and the total falls to -10.  With the receiver
x/y the receiver is cut at the slash, the row holds +10 alone and the total
rises to 10.  With the least int as amount the negation wraps, either column
holds the amount and the total is twice the least int.  With a log whose
amount field x does not parse, `getAccounts` returns the error for the log
with and without the row: there is nothing to summarize.  With the amount
`2 ^ 53 + 1`, which `float64` does not hold, the entries hold `2 ^ 53` and
the balance of A falls from 0 to `-2 ^ 53`, not by the amount.  With the log
of one expense of 1 by A and the amount `2 ^ 62`, which `float64` holds, the
total that `float64` computes falls from 1 to 0: the 1 is lost next to
`2 ^ 62`. -/
theorem transfer_neutrality_counterexample :
    (sendAccount ["A", "A", "B"] (submission "n" 10 "A" (some "B"))
          = Outcome.ret [Cell.str "n", Cell.int 10, Cell.int 10, Cell.int (-10)]
        ∧ getAccounts ["A", "A", "B"]
            ([] ++ [[Cell.str "n", Cell.int 10, Cell.int 10, Cell.int (-10)]])
          = Outcome.ret ([⟨"A", 10, "n"⟩, ⟨"A", 10, "n"⟩, ⟨"B", -10, "n"⟩], none)
        ∧ (summarizeAccounts [⟨"A", 10, "n"⟩, ⟨"A", 10, "n"⟩, ⟨"B", -10, "n"⟩]
            ["A", "A", "B"]).1 = 10
        ∧ getAccounts ["A", "A", "B"] [] = Outcome.ret ([], none)
        ∧ (summarizeAccounts [] ["A", "A", "B"]).1 = 0)
      ∧ (sendAccount ["A", "x/y"] (submission "n" 10 "A" (some "x/y"))
          = Outcome.ret [Cell.str "n", Cell.int 10, Cell.str ""]
        ∧ getAccounts ["A", "x/y"] ([] ++ [[Cell.str "n", Cell.int 10, Cell.str ""]])
          = Outcome.ret ([⟨"A", 10, "n"⟩], none)
        ∧ (summarizeAccounts [⟨"A", 10, "n"⟩] ["A", "x/y"]).1 = 10
        ∧ (summarizeAccounts [] ["A", "x/y"]).1 = 0)
      ∧ (sendAccount ["A", "B"] (submission "n" minInt "A" (some "B"))
          = Outcome.ret [Cell.str "n", Cell.int minInt, Cell.int minInt]
        ∧ getAccounts ["A", "B"] ([] ++ [[Cell.str "n", Cell.int minInt, Cell.int minInt]])
          = Outcome.ret ([⟨"A", (minInt : ℚ), "n"⟩, ⟨"B", (minInt : ℚ), "n"⟩], none)
        ∧ (summarizeAccounts [⟨"A", (minInt : ℚ), "n"⟩, ⟨"B", (minInt : ℚ), "n"⟩]
            ["A", "B"]).1 = 2 * (minInt : ℚ)
        ∧ (summarizeAccounts [] ["A", "B"]).1 = 0)
      ∧ (sendAccount ["A", "B"] (submission "n" 10 "A" (some "B"))
          = Outcome.ret [Cell.str "n", Cell.int 10, Cell.int (-10)]
        ∧ getAccounts ["A", "B"] [[Cell.str "m", Cell.str "x"]] = Outcome.ret ([], some "x")
        ∧ getAccounts ["A", "B"]
            ([[Cell.str "m", Cell.str "x"]] ++ [[Cell.str "n", Cell.int 10, Cell.int (-10)]])
          = Outcome.ret ([], some "x"))
      ∧ (sendAccount ["A", "B"] (submission "n" 9007199254740993 "A" (some "B"))
          = Outcome.ret
              [Cell.str "n", Cell.int 9007199254740993, Cell.int (-9007199254740993)]
        ∧ getAccounts ["A", "B"]
            ([] ++ [[Cell.str "n", Cell.int 9007199254740993,
              Cell.int (-9007199254740993)]])
          = Outcome.ret
              ([⟨"A", 9007199254740992, "n"⟩, ⟨"B", -9007199254740992, "n"⟩], none)
        ∧ (summarizeAccounts [] ["A", "B"]).2.lookup "A" = some (some 0)
        ∧ (summarizeAccounts [⟨"A", 9007199254740992, "n"⟩, ⟨"B", -9007199254740992, "n"⟩]
            ["A", "B"]).2.lookup "A" = some (some (-9007199254740992))
        ∧ (-9007199254740992 : ℚ) ≠ 0 - ((9007199254740993 : Int) : ℚ))
      ∧ (f64OfInt 4611686018427387904 = 4611686018427387904
        ∧ sendAccount ["A", "B"] (submission "n" 4611686018427387904 "A" (some "B"))
          = Outcome.ret
              [Cell.str "n", Cell.int 4611686018427387904, Cell.int (-4611686018427387904)]
        ∧ getAccounts ["A", "B"] [[Cell.str "m", Cell.int 1, Cell.str ""]]
          = Outcome.ret ([⟨"A", ((1 : Int) : ℚ), "m"⟩], none)
        ∧ getAccounts ["A", "B"]
            ([[Cell.str "m", Cell.int 1, Cell.str ""]]
              ++ [[Cell.str "n", Cell.int 4611686018427387904,
                Cell.int (-4611686018427387904)]])
          = Outcome.ret
              ([⟨"A", ((1 : Int) : ℚ), "m"⟩, ⟨"A", ((4611686018427387904 : Int) : ℚ), "n"⟩,
                ⟨"B", ((-4611686018427387904 : Int) : ℚ), "n"⟩], none)
        ∧ totalFloat64 [1] = 1
        ∧ totalFloat64 [1, 4611686018427387904, -4611686018427387904] = 0)
      ∧ (sendAccount ["A", "B", "B"] (submission "n" 10 "A" (some "B"))
          = Outcome.ret [Cell.str "n", Cell.int 10, Cell.int (-10), Cell.int (-10)]
        ∧ getAccounts ["A", "B", "B"]
            ([] ++ [[Cell.str "n", Cell.int 10, Cell.int (-10), Cell.int (-10)]])
          = Outcome.ret ([⟨"A", 10, "n"⟩, ⟨"B", -10, "n"⟩, ⟨"B", -10, "n"⟩], none)
        ∧ (summarizeAccounts [⟨"A", 10, "n"⟩, ⟨"B", -10, "n"⟩, ⟨"B", -10, "n"⟩]
            ["A", "B", "B"]).1 = -10) := by
  refine ⟨⟨by decide, by decide, ?_, by decide, ?_⟩, ⟨by decide, by decide, ?_, ?_⟩,
    ⟨by decide, by decide, ?_, ?_⟩, ⟨by decide, by decide, by decide⟩,
    ⟨by decide, by decide, ?_, ?_, ?_⟩,
    ⟨by decide, by decide, by decide, by decide, by decide, by decide⟩,
    ⟨by decide, by decide, ?_⟩⟩
  · simp [summarizeAccounts, totalOf]
  · simp [summarizeAccounts, totalOf]
  · simp [summarizeAccounts, totalOf]
  · simp [summarizeAccounts, totalOf]
  · simp [summarizeAccounts, totalOf]
    ring
  · simp [summarizeAccounts, totalOf]
  · simp +decide [summarizeAccounts, paymentsOf, initPayments, totalOf, put, readOr0,
      average, minus, List.lookup]
  · simp +decide [summarizeAccounts, paymentsOf, initPayments, totalOf, put, readOr0,
      average, minus, List.lookup]
  · norm_num
  · simp [summarizeAccounts, totalOf]

/-- C2 (amended): transfer neutrality.  For every member list, every log of
stored rows that `getAccounts` decodes without error, every int amount p
that `float64` holds exactly (as it holds every integer of absolute value at
most `2 ^ 53`) other than the least int, and every two different members A
and B that each occur exactly once in the list, B without slash in its name,
summarizing (`getAccounts`, then `summarizeAccounts`) the log with the row
that `sendAccount` builds for a transfer of p from A to B appended gives,
compared with summarizing the log without that row and with the sums, the
average and the differences of `summarizeAccounts` read exactly, over the
rationals instead of `float64`: the same total, a balance of A lower by p, a
balance of B higher by p, and an unchanged balance for every other member. -/
theorem transfer_neutrality (members : List String) (log : List (List Cell))
    (accounts : List account) (note : String) (p : Int) (A B : String)
    (hcA : members.count A = 1) (hcB : members.count B = 1) (hAB : A ≠ B)
    (hslash : '/' ∉ B.toList) (hlo : minInt < p) (hhi : p ≤ maxInt)
    (hexact : f64OfInt p = p)
    (hlog : getAccounts members log = Outcome.ret (accounts, none)) :
    ∃ row accounts1 a b,
      sendAccount members (submission note p A (some B)) = Outcome.ret row
        ∧ getAccounts members (log ++ [row]) = Outcome.ret (accounts1, none)
        ∧ (summarizeAccounts accounts1 members).1 = (summarizeAccounts accounts members).1
        ∧ (summarizeAccounts accounts members).2.lookup A = some (some a)
        ∧ (summarizeAccounts accounts1 members).2.lookup A = some (some (a - (p : ℚ)))
        ∧ (summarizeAccounts accounts members).2.lookup B = some (some b)
        ∧ (summarizeAccounts accounts1 members).2.lookup B = some (some (b + (p : ℚ)))
        ∧ ∀ u, u ≠ A → u ≠ B →
            (summarizeAccounts accounts1 members).2.lookup u
              = (summarizeAccounts accounts members).2.lookup u := by
  have hrow := sendAccount_submission members note p A (some B) (le_of_lt hlo) hhi
    (by intro t ht; cases ht; exact hslash)
  simp only [Option.getD_some] at hrow
  have hA : A ∈ members := List.count_pos_iff.mp (by omega)
  have hB : B ∈ members := List.count_pos_iff.mp (by omega)
  have hdec := decodeRow_transfer members note p A B accounts hlo hhi hexact
  have hget : getAccounts members
      (log ++ [Cell.str note :: members.map (fun m =>
        if m = A then Cell.int p else if m = B then Cell.int (negInt p) else Cell.str "")])
      = Outcome.ret (accounts ++ members.filterMap (transferEntry note p A B), none) := by
    unfold getAccounts at hlog ⊢
    rw [decodeRows_append members log _ [] accounts hlog]
    simp [decodeRows, hdec]
  have hBA : ¬ B = A := fun h => hAB h.symm
  have htot : totalOf (accounts ++ members.filterMap (transferEntry note p A B))
      = totalOf accounts := by
    rw [totalOf_append, transfer_sum note p A B hAB, hcA, hcB]
    simp
  have hpA : paidBy A (accounts ++ members.filterMap (transferEntry note p A B))
      = paidBy A accounts + (p : ℚ) := by
    rw [paidBy_append, transfer_paidBy note p A B hAB, hcA]
    simp [hAB]
  have hpB : paidBy B (accounts ++ members.filterMap (transferEntry note p A B))
      = paidBy B accounts - (p : ℚ) := by
    rw [paidBy_append, transfer_paidBy note p A B hAB, hcB]
    simp [hBA]
    ring
  have hn : members.length ≠ 0 := by
    intro h
    rw [List.length_eq_zero.mp h] at hA
    simp at hA
  refine ⟨_, _, totalOf accounts / (members.length : ℚ) - paidBy A accounts,
    totalOf accounts / (members.length : ℚ) - paidBy B accounts, hrow, hget, ?_, ?_, ?_, ?_,
    ?_, ?_⟩
  · simpa [summarizeAccounts] using htot
  · rw [lookup_summary]
    simp [hA, average, minus, hn]
  · rw [lookup_summary, htot, hpA]
    simp [hA, average, minus, hn]
    ring
  · rw [lookup_summary]
    simp [hB, average, minus, hn]
  · rw [lookup_summary, htot, hpB]
    simp [hB, average, minus, hn]
    ring
  · intro u huA huB
    have hnot : u ∉ (members.filterMap (transferEntry note p A B)).map account.User := by
      intro hmem
      obtain ⟨e, he, heu⟩ := List.mem_map.mp hmem
      rcases transfer_users note p A B members e he with h | h
      · exact huA (by rw [← heu, h])
      · exact huB (by rw [← heu, h])
    have hpu : paidBy u (accounts ++ members.filterMap (transferEntry note p A B))
        = paidBy u accounts := by
      rw [paidBy_append, paidBy_eq_zero u _ hnot]
      simp
    rw [lookup_summary, lookup_summary, htot, hpu]
    simp only [List.map_append, List.mem_append, hnot, or_false]

/-- C2 (amended), at members A, B, C, the log of one expense of 30 by B, and a
transfer of 10 from A to C. -/
theorem transfer_neutrality_witness :
    ((["A", "B", "C"] : List String).count "A" = 1
        ∧ (["A", "B", "C"] : List String).count "C" = 1)
      ∧ "A" ≠ "C" ∧ (minInt < 10 ∧ (10 : Int) ≤ maxInt) ∧ f64OfInt 10 = 10
      ∧ getAccounts ["A", "B", "C"] [[Cell.str "m", Cell.str "", Cell.str "30"]]
          = Outcome.ret ([⟨"B", 30, "m"⟩], none)
      ∧ ∃ row accounts1,
          sendAccount ["A", "B", "C"] (submission "n" 10 "A" (some "C")) = Outcome.ret row
            ∧ getAccounts ["A", "B", "C"] ([[Cell.str "m", Cell.str "", Cell.str "30"]] ++ [row])
                = Outcome.ret (accounts1, none)
            ∧ (summarizeAccounts accounts1 ["A", "B", "C"]).1
                = (summarizeAccounts [⟨"B", 30, "m"⟩] ["A", "B", "C"]).1 := by
  obtain ⟨row, accounts1, _, _, h1, h2, h3, _⟩ :=
    transfer_neutrality ["A", "B", "C"] [[Cell.str "m", Cell.str "", Cell.str "30"]]
      [⟨"B", 30, "m"⟩] "n" 10 "A" "C" (by decide) (by decide) (by decide) (by decide)
      (by decide) (by decide) (by decide) (by decide)
  exact ⟨by decide, by decide, by decide, by decide, by decide, row, accounts1, h1, h2, h3⟩

end SplitTheBill